import Mathlib

/-!
Verification of the rev.com export synchronization engine.

Shallow embedding of the core of the `rev_exporter` Python package:
  * `attachments.py` — attachment classification, preferred formats,
    file-extension resolution, filename sanitization;
  * `models.py` — `Order.is_completed`;
  * `orders.py` — paginated order enumeration with a date cutoff;
  * `storage.py` — the download ledger (index load/save, `is_downloaded`,
    `mark_downloaded`);
  * `browser/file_scanner.py` — double-extension resolution and the
    previewability decision;
  * `cli.py` — the per-attachment sync loop, instrumented with an
    explicit trace of network calls.

Python strings are modelled as `List Char`; Python's `str.lower` as a
character-wise `Char.toLower` map; `in` (substring) as `List.IsInfix`;
`str.endswith` as `List.IsSuffix`.  Timestamps are modelled as `Int`
(the embedding abstracts ISO-8601 parsing: a `placed_on` field that is
present and parseable becomes `some t`, anything else `none`, exactly
the two outcomes of `Order.from_api_response`).
-/

set_option maxRecDepth 100000

namespace RevExporter

/-- Character-wise lower-casing, the model of Python's `str.lower()`. -/
def lowerStr (s : List Char) : List Char := s.map Char.toLower

/-! ### models.py — data model -/

/-- `models.Attachment`: `id`, display `name`, declared `type`, optional
download URI.  `name` and `type` are plain strings in the dataclass; the
classifier guards against falsy values, which for strings means `""`,
so the `List Char` model (with `[]` as the falsy value) is faithful. -/
structure Attachment where
  id : String
  name : List Char
  type : List Char
  download_uri : Option String := none

/-- `models.Order`: order number, free-text status, optional placed-on
timestamp, attachment list.  `placed_on` is `some t` exactly when the
remote payload carried a string that `datetime.fromisoformat` accepted. -/
structure Order where
  order_number : String
  status : List Char
  placed_on : Option Int := none
  attachments : List Attachment := []

/-- The status labels `Order.is_completed` accepts (lower-cased). -/
def completed_statuses : List (List Char) :=
  ["complete".data, "completed".data, "done".data, "finished".data]

/-- `Order.is_completed`: lower-cased status membership test. -/
def is_completed (o : Order) : Bool :=
  decide (lowerStr o.status ∈ completed_statuses)

/-! ### attachments.py — classification -/

/-- `AttachmentType` enum. -/
inductive AttachmentType where
  | MEDIA
  | TRANSCRIPT
  | CAPTION
  | OTHER
deriving DecidableEq

/-- Transcript keyword group (first priority). -/
def transcript_keywords : List (List Char) :=
  ["transcript".data, "transcription".data, "txt".data, "json".data, "docx".data]

/-- Caption keyword group (second priority). -/
def caption_keywords : List (List Char) :=
  ["caption".data, "srt".data, "vtt".data, "subtitle".data]

/-- Media keyword group (third priority). -/
def media_keywords : List (List Char) :=
  ["media".data, "audio".data, "video".data, "mp3".data, "mp4".data,
   "wav".data, "m4a".data, "mov".data, "avi".data]

/-- `any(keyword in att_type or keyword in name for keyword in kws)`. -/
def anyKeyword (kws : List (List Char)) (t n : List Char) : Bool :=
  kws.any (fun k => decide (k <:+: t) || decide (k <:+: n))

/-- `AttachmentManager.classify_attachment`: lower-case `type` and `name`
(falsy values coalesce to the empty string), then test the three keyword
groups in fixed priority order; `OTHER` when none matches. -/
def classify_attachment (att : Attachment) : AttachmentType :=
  let t := if att.type.isEmpty then [] else lowerStr att.type
  let n := if att.name.isEmpty then [] else lowerStr att.name
  if anyKeyword transcript_keywords t n then .TRANSCRIPT
  else if anyKeyword caption_keywords t n then .CAPTION
  else if anyKeyword media_keywords t n then .MEDIA
  else .OTHER

/-- `AttachmentManager.get_preferred_format` (depends only on the type). -/
def get_preferred_format (t : AttachmentType) : Option String :=
  match t with
  | .TRANSCRIPT => some "json"
  | .CAPTION => some "srt"
  | _ => none

/-! ### attachments.py — filename sanitization -/

/-- The characters `re.sub(r'[<>:"/\\|?*]', "_", ·)` replaces. -/
def illegal_chars : List Char := ['<', '>', ':', '\"', '/', '\\', '|', '?', '*']

/-- Characters removed from both ends by `.strip(" .")`. -/
def isStripChar (c : Char) : Bool := c = ' ' || c = '.'

/-- Python `str.strip(" .")`: drop the maximal runs of spaces and dots
from both ends. -/
def pyStrip (l : List Char) : List Char :=
  ((l.dropWhile isStripChar).reverse.dropWhile isStripChar).reverse

/-- `AttachmentManager.sanitize_filename`: replace illegal characters by
`_`, strip leading/trailing spaces and dots, then truncate to 200
characters. -/
def sanitize_filename (filename : List Char) : List Char :=
  let f1 := filename.map (fun c => if c ∈ illegal_chars then '_' else c)
  let f2 := pyStrip f1
  if 200 < f2.length then f2.take 200 else f2

/-! ### orders.py — filtering -/

/-- `OrderManager.filter_completed_orders`. -/
def filter_completed_orders (orders : List Order) : List Order :=
  orders.filter (fun o => is_completed o)

/-! ### orders.py — paginated enumeration

The remote listing is modelled as a finite `List Page`; requesting a
page past the end of the list returns a page with zero orders, which is
exactly the situation the loop's `if not orders_data: break` guard
handles.  `Order.from_api_response` is modelled as having already been
applied, so a page carries `Order` values directly (the only field the
loop inspects is `placed_on`). -/

/-- One `/orders` listing response: the declared `total_count` and the
page's order list. -/
structure Page where
  total_count : Nat
  orders : List Order

/-- The inner `for order_data in orders_data` loop of
`OrderManager.get_all_orders`: either an early `return all_orders`
triggered by the cutoff (`Sum.inl`) or the page finishes and hands back
the grown accumulator (`Sum.inr`).  The cutoff test mirrors
`if since and order.placed_on: if order.placed_on < since: return`. -/
def scan_page (since : Option Int) (acc : List Order) :
    List Order → (List Order) ⊕ (List Order)
  | [] => .inr acc
  | o :: rest =>
    match since, o.placed_on with
    | some T, some t =>
      if t < T then .inl acc
      else scan_page since (acc ++ [o]) rest
    | some _, none => scan_page since (acc ++ [o]) rest
    | none, _ => scan_page since (acc ++ [o]) rest

/-- The `while True` pagination loop of `OrderManager.get_all_orders`,
instrumented with a count of `list_orders` calls (pages fetched).
Matches the source: break on an empty page, early return on the cutoff,
break once `len(all_orders) >= total_count`, else next page. -/
def run_pages (since : Option Int) :
    List Order → Nat → List Page → (List Order × Nat)
  | acc, fetched, [] => (acc, fetched + 1)
  | acc, fetched, p :: rest =>
    let fetched' := fetched + 1
    if p.orders.isEmpty then (acc, fetched')
    else
      match scan_page since acc p.orders with
      | .inl result => (result, fetched')
      | .inr acc' =>
        if p.total_count ≤ acc'.length then (acc', fetched')
        else run_pages since acc' fetched' rest

/-- `OrderManager.get_all_orders`: the orders the pagination loop
returns. -/
def get_all_orders (pages : List Page) (since : Option Int) : List Order :=
  (run_pages since [] 0 pages).1

/-- Number of listing pages the pagination loop fetches. -/
def pages_fetched (pages : List Page) (since : Option Int) : Nat :=
  (run_pages since [] 0 pages).2

/-- Spec-side enumerator for the no-cutoff case, written from the
spec's words: "continues until the number of records produced reaches
the page response's declared total, or a page returns zero records". -/
def spec_enumerate (acc : List Order) : List Page → List Order
  | [] => acc
  | p :: rest =>
    if p.orders.isEmpty then acc
    else
      let acc' := acc ++ p.orders
      if p.total_count ≤ acc'.length then acc' else spec_enumerate acc' rest

/-! ### browser/file_scanner.py — double-extension resolution -/

/-- The content extensions of `FileScanner._get_real_extension`. -/
def content_extensions : List (List Char) :=
  [".docx".data, ".srt".data, ".txt".data]

/-- The metadata extensions of `FileScanner._get_real_extension`. -/
def metadata_extensions : List (List Char) := [".json".data]

/-- `pathlib.PurePath.suffix` on a file name: the substring from the
last dot, provided that dot is neither the first nor the last
character; otherwise the empty string. -/
def pathSuffix (name : List Char) : List Char :=
  match (name.reverse.findIdx? (fun c => c = '.')) with
  | none => []
  | some ri =>
    let i := name.length - 1 - ri
    if 0 < i ∧ i < name.length - 1 then name.drop i else []

/-- `FileScanner._get_real_extension`: on the lower-cased name, first a
doubled content extension, then a content extension followed by a
metadata extension, then two different content extensions (the first
wins), then a single content extension, else `Path.suffix.lower()`. -/
def get_real_extension (fname : List Char) : List Char :=
  let name := lowerStr fname
  match content_extensions.find? (fun e => decide ((e ++ e) <:+ name)) with
  | some e => e
  | none =>
    match (content_extensions.flatMap fun ce =>
        metadata_extensions.map fun me => (ce, me)).find?
        (fun p => decide ((p.1 ++ p.2) <:+ name)) with
    | some p => p.1
    | none =>
      match (content_extensions.flatMap fun e1 =>
          content_extensions.map fun e2 => (e1, e2)).find?
          (fun p => !(p.1 == p.2) && decide ((p.1 ++ p.2) <:+ name)) with
      | some p => p.1
      | none =>
        match content_extensions.find? (fun e => decide (e <:+ name)) with
        | some e => e
        | none => lowerStr (pathSuffix fname)

/-- The double extensions `FileScanner._is_viewable` accepts in front
of a trailing `.json`. -/
def viewable_double_exts : List (List Char) :=
  [".docx".data, ".srt".data, ".txt".data, ".mp4".data, ".m4a".data, ".mp3".data]

/-- The previewable resolved extensions of `FileScanner._is_viewable`. -/
def viewable_extensions : List (List Char) :=
  [".docx".data, ".txt".data, ".srt".data]

/-- `FileScanner._is_viewable`: a `.json` name is viewable exactly when
the `.json` sits right behind one of six recognized extensions; any
other name is viewable exactly when its resolved real extension is
`.docx`, `.txt` or `.srt`. -/
def is_viewable (fname : List Char) : Bool :=
  let nl := lowerStr fname
  if ".json".data <:+ nl then
    viewable_double_exts.any (fun e => decide ((e ++ ".json".data) <:+ nl))
  else
    decide (get_real_extension fname ∈ viewable_extensions)

/-! ### storage.py — the download ledger

`StorageManager._load_index` / `_save_index` speak JSON, so the ledger
file is modelled with a small JSON value type.  A file on disk is an
`Option (Option Json)`: `none` when the file does not exist (the
`self.index_file.exists()` guard), `some none` when opening or decoding
it raises one of the two caught exceptions (`IOError`,
`json.JSONDecodeError`), and `some (some j)` when `json.load` yields
`j`.  Exceptions the `except` clause does not catch are modelled with
`Except`. -/

/-- A parsed JSON value (`json.load`'s possible results). -/
inductive Json where
  | null
  | bool (b : Bool)
  | num (n : Int)
  | str (s : String)
  | arr (elems : List Json)
  | obj (fields : List (String × Json))

/-- The Python exceptions `_load_index`'s `except` clause does not
catch. -/
inductive PyError where
  | attributeError
  | typeError
deriving DecidableEq

/-- `data.get(key, default)`: only `dict` has `.get`; every other
`json.load` result raises `AttributeError`.  Python's JSON decoder
keeps the last of duplicate keys, hence the reversed lookup. -/
def dictGet (j : Json) (key : String) (default : Json) : Except PyError Json :=
  match j with
  | .obj fields => .ok (((fields.reverse).lookup key).getD default)
  | _ => .error .attributeError

/-- Whether a JSON value is hashable as a Python object (lists and
dicts are not). -/
def pyHashable : Json → Bool
  | .arr _ => false
  | .obj _ => false
  | _ => true

/-- `set(x)`: iterating a list yields its elements, a string its
characters, a dict its keys; anything else raises `TypeError`, as does
an unhashable element.  The resulting Python set is represented by the
list of elements inserted into it; set equality is membership
equivalence. -/
def pySetElems (j : Json) : Except PyError (List Json) :=
  match j with
  | .arr elems =>
    if elems.all pyHashable then .ok elems else .error .typeError
  | .str s => .ok (s.data.map (fun c => Json.str (Char.toString c)))
  | .obj fields => .ok (fields.map (fun p => Json.str p.1))
  | _ => .error .typeError

/-- `StorageManager._load_index`: a missing file leaves the set empty;
a caught decode/IO failure leaves it empty; otherwise
`set(data.get("downloaded_attachments", []))`. -/
def load_index (file : Option (Option Json)) : Except PyError (List Json) :=
  match file with
  | none => .ok []
  | some none => .ok []
  | some (some j) => do
    let v ← dictGet j "downloaded_attachments" (Json.arr [])
    pySetElems v

/-- `StorageManager._save_index`: the JSON document written for a given
in-memory set of downloaded attachment ids (`ts` is the
`last_updated` timestamp string; `list(set)` enumerates in an
unspecified order, modelled here as the sorted one). -/
def save_index (s : Finset String) (ts : String) : Json :=
  .obj [("downloaded_attachments",
         .arr ((s.sort (fun a b => a ≤ b)).map .str)),
        ("last_updated", .str ts)]

/-! ### cli.py — the sync driver's attachment loop

The driver is embedded as a pure function from an environment (the
Transport Client's responses) to an explicit trace of the calls it
makes, together with the evolving in-memory ledger.  Oracles return
`none` where the Python call would raise `RevAPIError`; the
`try/except` blocks of `sync` turn that into a recorded failure. -/

/-- A traced action of the sync loop. -/
inductive SyncEvent where
  | classifyCall (id : String)
  | metadataFetch (id : String)
  | contentFetch (id : String) (fmt : Option String)
deriving DecidableEq

/-- The attachment id an event concerns. -/
def SyncEvent.eventId : SyncEvent → String
  | .classifyCall id => id
  | .metadataFetch id => id
  | .contentFetch id _ => id

/-- The remote service, as seen by the sync loop: full order detail,
attachment metadata, and attachment content per endpoint (`none` fmt is
the bare `/content` endpoint, `some f` the `/content.f` variant).
Content is an abstract `Nat` standing for the fetched bytes. -/
structure SyncEnv where
  order_details : String → Option Order
  attachment_metadata : String → Option Attachment
  content : String → Option String → Option Nat

/-- `AttachmentManager.download_attachment_content`, instrumented: each
attempted content endpoint is traced; a specific format falls back to
the preferred-format list and finally to the bare endpoint; `none`
result means every variant failed (`RevAPIError` escapes). -/
def download_attachment_content (env : SyncEnv) (id : String)
    (format : Option String) (preferred_formats : Option (List String)) :
    List SyncEvent × Option Nat :=
  let tryFormats : List String → List SyncEvent × Option Nat := fun fmts =>
    (fmts.foldl (fun st f =>
      match st with
      | (tr, some b) => (tr, some b)
      | (tr, none) =>
        (tr ++ [.contentFetch id (some f)], env.content id (some f))) ([], none))
  let bare : List SyncEvent × Option Nat :=
    ([.contentFetch id none], env.content id none)
  match format with
  | some f =>
    match env.content id (some f) with
    | some b => ([.contentFetch id (some f)], some b)
    | none =>
      let head : List SyncEvent := [.contentFetch id (some f)]
      match preferred_formats with
      | some fmts =>
        match tryFormats fmts with
        | (tr, some b) => (head ++ tr, some b)
        | (tr, none) => (head ++ tr ++ bare.1, bare.2)
      | none => (head ++ bare.1, bare.2)
  | none =>
    match preferred_formats with
    | some fmts =>
      match tryFormats fmts with
      | (tr, some b) => (tr, some b)
      | (tr, none) => (tr ++ bare.1, bare.2)
    | none => (bare.1, bare.2)

/-- How processing one attachment ended, mirroring the branches of the
inner loop of `sync`. -/
inductive AttachmentOutcome where
  | skipped
  | excluded
  | dryRun
  | downloaded
  | failed
deriving DecidableEq

/-- The body of `for attachment in full_order.attachments` in `sync`:
consult `storage.is_downloaded` first and skip outright when the id is
in the ledger; otherwise classify, apply the include toggles, and (when
not a dry run) fetch metadata, fetch content with format fallback,
save, and `mark_downloaded`.  Returns the trace of traced calls, the
ledger after the attachment, and the outcome.  (Disk writes are not
modelled; `mark_downloaded`'s in-memory effect is the `insert`.) -/
def process_attachment (env : SyncEnv)
    (include_media include_transcripts dry_run : Bool)
    (ledger : Finset String) (att : Attachment) :
    List SyncEvent × Finset String × AttachmentOutcome :=
  if att.id ∈ ledger then ([], ledger, .skipped)
  else
    let tr0 : List SyncEvent := [.classifyCall att.id]
    let t := classify_attachment att
    if t = .MEDIA ∧ ¬ include_media then (tr0, ledger, .excluded)
    else if (t = .TRANSCRIPT ∨ t = .CAPTION) ∧ ¬ include_transcripts then
      (tr0, ledger, .excluded)
    else
      let pf := get_preferred_format t
      if dry_run then (tr0, ledger, .dryRun)
      else
        match env.attachment_metadata att.id with
        | none => (tr0 ++ [.metadataFetch att.id], ledger, .failed)
        | some _ =>
          match download_attachment_content env att.id pf none with
          | (tr1, none) =>
            (tr0 ++ [.metadataFetch att.id] ++ tr1, ledger, .failed)
          | (tr1, some _) =>
            (tr0 ++ [.metadataFetch att.id] ++ tr1,
             insert att.id ledger, .downloaded)

/-- The attachment loop over one order's attachment list. -/
def process_attachments (env : SyncEnv)
    (include_media include_transcripts dry_run : Bool) :
    Finset String → List Attachment → List SyncEvent × Finset String
  | ledger, [] => ([], ledger)
  | ledger, a :: rest =>
    let (tr, ledger', _) :=
      process_attachment env include_media include_transcripts dry_run ledger a
    let (trs, ledger'') :=
      process_attachments env include_media include_transcripts dry_run
        ledger' rest
    (tr ++ trs, ledger'')

/-- The order loop of `sync`: fetch full detail (a failure skips the
order), then process its attachments. -/
def sync_run (env : SyncEnv)
    (include_media include_transcripts dry_run : Bool) :
    Finset String → List Order → List SyncEvent × Finset String
  | ledger, [] => ([], ledger)
  | ledger, o :: rest =>
    match env.order_details o.order_number with
    | none => sync_run env include_media include_transcripts dry_run ledger rest
    | some full =>
      let (tr, ledger') :=
        process_attachments env include_media include_transcripts dry_run
          ledger full.attachments
      let (trs, ledger'') :=
        sync_run env include_media include_transcripts dry_run ledger' rest
      (tr ++ trs, ledger'')

/-! ## Helper notions and lemmas -/

/-- Spec-side reading of one keyword group: some keyword of the group
occurs as a substring of the lower-cased declared type or of the
lower-cased display name. -/
def keywordHit (kws : List (List Char)) (att : Attachment) : Prop :=
  ∃ k ∈ kws, k <:+: lowerStr att.type ∨ k <:+: lowerStr att.name

instance (kws : List (List Char)) (att : Attachment) :
    Decidable (keywordHit kws att) := by
  unfold keywordHit; infer_instance

lemma ite_empty_lower (s : List Char) :
    (if s.isEmpty then [] else lowerStr s) = lowerStr s := by
  cases s <;> simp [lowerStr]

lemma anyKeyword_iff (kws : List (List Char)) (att : Attachment) :
    anyKeyword kws (lowerStr att.type) (lowerStr att.name) = true ↔
      keywordHit kws att := by
  simp [anyKeyword, keywordHit, List.any_eq_true]

lemma classify_eq (att : Attachment) :
    classify_attachment att =
      (if keywordHit transcript_keywords att then .TRANSCRIPT
       else if keywordHit caption_keywords att then .CAPTION
       else if keywordHit media_keywords att then .MEDIA
       else .OTHER) := by
  simp only [classify_attachment, ite_empty_lower]
  simp only [anyKeyword_iff]

/-! ## C10 — completed-order filtering -/

/-- C10: `filter_completed_orders` keeps exactly the orders whose
status, lower-cased, is one of `complete`, `completed`, `done`,
`finished`; every order with any other status label is excluded. -/
theorem C10_filter_completed_orders (orders : List Order) (o : Order) :
    o ∈ filter_completed_orders orders ↔
      o ∈ orders ∧
        lowerStr o.status ∈
          ["complete".data, "completed".data, "done".data, "finished".data] := by
  simp [filter_completed_orders, is_completed, completed_statuses,
    List.mem_filter]

/-! ## C8 — attachment classification -/

/-- C8: classification lower-cases the declared type and name, tests
the transcript, caption and media keyword groups in that fixed order,
and returns the first group with a substring hit in either field
(`OTHER` when none hits); in particular an attachment whose type is
`"transcript"` and whose name contains `"mp4"` classifies as
`TRANSCRIPT`, not `MEDIA`. -/
theorem C8_classify_attachment (att : Attachment) :
    ((classify_attachment att = .TRANSCRIPT ↔
        keywordHit transcript_keywords att) ∧
     (classify_attachment att = .CAPTION ↔
        ¬ keywordHit transcript_keywords att ∧
          keywordHit caption_keywords att) ∧
     (classify_attachment att = .MEDIA ↔
        ¬ keywordHit transcript_keywords att ∧
          ¬ keywordHit caption_keywords att ∧
          keywordHit media_keywords att) ∧
     (classify_attachment att = .OTHER ↔
        ¬ keywordHit transcript_keywords att ∧
          ¬ keywordHit caption_keywords att ∧
          ¬ keywordHit media_keywords att)) ∧
    (att.type = "transcript".data → "mp4".data <:+: lowerStr att.name →
      classify_attachment att = .TRANSCRIPT) := by
  constructor
  · refine ⟨?_, ?_, ?_, ?_⟩ <;> rw [classify_eq] <;>
      split_ifs with h1 h2 h3 <;> simp_all
  · intro hty _
    rw [classify_eq, if_pos]
    exact ⟨"transcript".data, by simp [transcript_keywords],
      Or.inl (by rw [hty]; decide)⟩

/-- Witness for C8 at a concrete attachment with `type="transcript"`
and a name containing `"mp4"`. -/
theorem C8_classify_attachment_witness :
    classify_attachment ⟨"a1", "video.mp4".data, "transcript".data, none⟩ =
      .TRANSCRIPT :=
  (C8_classify_attachment
    ⟨"a1", "video.mp4".data, "transcript".data, none⟩).2 rfl (by decide)

/-- Witness for C10 at a concrete completed order. -/
theorem C10_filter_completed_orders_witness :
    ⟨"1", "Complete".data, none, []⟩ ∈
        filter_completed_orders [⟨"1", "Complete".data, none, []⟩] ↔
      (⟨"1", "Complete".data, none, []⟩ : Order) ∈
          [(⟨"1", "Complete".data, none, []⟩ : Order)] ∧
        lowerStr (Order.status ⟨"1", "Complete".data, none, []⟩) ∈
          ["complete".data, "completed".data, "done".data, "finished".data] :=
  C10_filter_completed_orders [⟨"1", "Complete".data, none, []⟩]
    ⟨"1", "Complete".data, none, []⟩

/-! ## C9 — records without a placed-on date -/

lemma scan_page_none_dates (T : Int) (acc : List Order) (l : List Order)
    (h : ∀ o ∈ l, o.placed_on = none) :
    scan_page (some T) acc l = scan_page none acc l := by
  induction l generalizing acc with
  | nil => rfl
  | cons o rest ih =>
    have ho : o.placed_on = none := h o (by simp)
    simp only [scan_page, ho]
    exact ih _ (fun o' ho' => h o' (by simp [ho']))

lemma run_pages_none_dates (T : Int) (acc : List Order) (fetched : Nat)
    (pages : List Page)
    (h : ∀ p ∈ pages, ∀ o ∈ p.orders, o.placed_on = none) :
    run_pages (some T) acc fetched pages = run_pages none acc fetched pages := by
  induction pages generalizing acc fetched with
  | nil => rfl
  | cons p rest ih =>
    have hp : ∀ o ∈ p.orders, o.placed_on = none := h p (by simp)
    simp only [run_pages]
    split
    · rfl
    · rw [scan_page_none_dates T acc p.orders hp]
      rcases hs : scan_page none acc p.orders with r | acc'
      · rfl
      · simp only []
        split
        · rfl
        · exact ih _ _ (fun p' hp' => h p' (by simp [hp']))

/-- C9: a record whose `placed_on` is absent (missing or unparseable)
is emitted and the enumeration never stops on it, for any cutoff: the
inner page scan passes it straight into the accumulator, and a run over
pages all of whose records lack `placed_on` behaves exactly as a run
with no cutoff at all. -/
theorem C9_absent_placed_at :
    (∀ (since : Option Int) (acc : List Order) (o : Order)
        (rest : List Order),
      o.placed_on = none →
      scan_page since acc (o :: rest) = scan_page since (acc ++ [o]) rest) ∧
    (∀ (pages : List Page) (T : Int),
      (∀ p ∈ pages, ∀ o ∈ p.orders, o.placed_on = none) →
      get_all_orders pages (some T) = get_all_orders pages none) := by
  constructor
  · intro since acc o rest h
    cases since <;> simp [scan_page, h]
  · intro pages T h
    unfold get_all_orders
    rw [run_pages_none_dates T [] 0 pages h]

/-- Witness for C9 at a concrete undated order and cutoff. -/
theorem C9_absent_placed_at_witness :
    scan_page (some 5) [] [⟨"1", "Complete".data, none, []⟩]
      = scan_page (some 5) [⟨"1", "Complete".data, none, []⟩] [] :=
  C9_absent_placed_at.1 (some 5) [] ⟨"1", "Complete".data, none, []⟩ [] rfl

/-! ## C3 — tolerance of a missing or corrupt ledger file -/

/-- C3 counterexample: a ledger file whose content is valid JSON but a
top-level array (`[]`) — corrupt as a ledger — makes `_load_index`
raise `AttributeError` (only `JSONDecodeError` and `IOError` are
caught), so loading is not exception-free for every possible file
content. -/
theorem C3_counterexample_load_index :
    load_index (some (some (Json.arr []))) = .error .attributeError := rfl

/-- C3 (amended): loading the ledger from a missing file, or from a
file whose open/read raises `IOError` or whose content is not decodable
JSON, never raises and yields the empty set of downloaded ids; a file
that decodes to JSON of the wrong shape (e.g. a top-level array) is
outside the caught exceptions and can raise. -/
theorem C3_load_index_tolerant (f : Option (Option Json))
    (h : f = none ∨ f = some none) : load_index f = .ok [] := by
  rcases h with rfl | rfl <;> rfl

/-- Witness for C3 at both tolerated file states. -/
theorem C3_load_index_tolerant_witness :
    load_index none = .ok [] ∧ load_index (some none) = .ok [] :=
  ⟨C3_load_index_tolerant none (Or.inl rfl),
   C3_load_index_tolerant (some none) (Or.inr rfl)⟩

/-! ## C7 — ledger save/load round trip -/

/-- C7: saving the ledger and re-loading the persisted document yields
exactly the saved id set — the loaded elements are the saved ids (as
JSON strings), and membership is preserved both ways. -/
theorem C7_ledger_round_trip (s : Finset String) (ts : String) :
    load_index (some (some (save_index s ts)))
        = .ok ((s.sort (fun a b => a ≤ b)).map Json.str)
    ∧ ∀ id : String,
        Json.str id ∈ (s.sort (fun a b => a ≤ b)).map Json.str ↔ id ∈ s := by
  constructor
  · have h0 : load_index (some (some (save_index s ts)))
        = pySetElems (Json.arr ((s.sort (fun a b => a ≤ b)).map Json.str)) :=
      rfl
    rw [h0]
    simp only [pySetElems]
    rw [if_pos]
    simp only [List.all_eq_true]
    intro x hx
    rcases List.mem_map.mp hx with ⟨a, _, rfl⟩
    rfl
  · intro id
    simp [List.mem_map, Finset.mem_sort]

/-- Witness for C7 at the empty ledger. -/
theorem C7_ledger_round_trip_witness :
    load_index (some (some (save_index ∅ "2024-01-01T00:00:00")))
      = .ok (((∅ : Finset String).sort (fun a b => a ≤ b)).map Json.str) :=
  (C7_ledger_round_trip ∅ "2024-01-01T00:00:00").1

/-! ## C4 / C5 — double-extension resolution and previewability -/

lemma suffix_excl_le {a b n : List Char} (hb : b <:+ n)
    (hlen : a.length ≤ b.length) (hnab : ¬ a <:+ b) : ¬ a <:+ n :=
  fun ha => hnab (List.suffix_of_suffix_length_le ha hb hlen)

lemma suffix_excl_ge {a b n : List Char} (hb : b <:+ n)
    (hlen : b.length ≤ a.length) (hnba : ¬ b <:+ a) : ¬ a <:+ n :=
  fun ha => hnba (List.suffix_of_suffix_length_le hb ha hlen)

lemma contentMeta_pairs :
    (content_extensions.flatMap fun ce =>
        metadata_extensions.map fun me => (ce, me))
      = [(".docx".data, ".json".data), (".srt".data, ".json".data),
         (".txt".data, ".json".data)] := rfl

/-- C4: a (lower-cased) name ending in `.docx.json`, `.srt.json` or
`.txt.json` resolves to `.docx`, `.srt`, `.txt` respectively and is
previewable; a name ending in `.srt.srt` resolves to `.srt`. -/
theorem C4_double_extension_resolution (fname : List Char) :
    (".docx.json".data <:+ lowerStr fname →
      get_real_extension fname = ".docx".data ∧ is_viewable fname = true) ∧
    (".srt.json".data <:+ lowerStr fname →
      get_real_extension fname = ".srt".data ∧ is_viewable fname = true) ∧
    (".txt.json".data <:+ lowerStr fname →
      get_real_extension fname = ".txt".data ∧ is_viewable fname = true) ∧
    (".srt.srt".data <:+ lowerStr fname →
      get_real_extension fname = ".srt".data) := by
  refine ⟨?_, ?_, ?_, ?_⟩
  · intro h
    have hndd : ¬ (".docx.docx".data <:+ lowerStr fname) :=
      suffix_excl_le h (by decide) (by decide)
    have hnss : ¬ (".srt.srt".data <:+ lowerStr fname) :=
      suffix_excl_le h (by decide) (by decide)
    have hntt : ¬ (".txt.txt".data <:+ lowerStr fname) :=
      suffix_excl_le h (by decide) (by decide)
    have hfd : content_extensions.find?
        (fun e => decide ((e ++ e) <:+ lowerStr fname)) = none := by
      rw [List.find?_eq_none]
      intro e he
      rcases (by simpa [content_extensions] using he :
          e = ".docx".data ∨ e = ".srt".data ∨ e = ".txt".data)
        with rfl | rfl | rfl
      · simpa using hndd
      · simpa using hnss
      · simpa using hntt
    have hfm : (content_extensions.flatMap fun ce =>
        metadata_extensions.map fun me => (ce, me)).find?
          (fun p => decide ((p.1 ++ p.2) <:+ lowerStr fname))
        = some (".docx".data, ".json".data) := by
      rw [contentMeta_pairs]
      exact List.find?_cons_of_pos _ (by simpa using h)
    constructor
    · simp only [get_real_extension, hfd, hfm]
    · have hj : ".json".data <:+ lowerStr fname :=
        List.IsSuffix.trans (by decide) h
      simp only [is_viewable]
      rw [if_pos hj, List.any_eq_true]
      exact ⟨".docx".data, by simp [viewable_double_exts], by simpa using h⟩
  · intro h
    have hndd : ¬ (".docx.docx".data <:+ lowerStr fname) :=
      suffix_excl_ge h (by decide) (by decide)
    have hnss : ¬ (".srt.srt".data <:+ lowerStr fname) :=
      suffix_excl_le h (by decide) (by decide)
    have hntt : ¬ (".txt.txt".data <:+ lowerStr fname) :=
      suffix_excl_le h (by decide) (by decide)
    have hndj : ¬ (".docx.json".data <:+ lowerStr fname) :=
      suffix_excl_ge h (by decide) (by decide)
    have hfd : content_extensions.find?
        (fun e => decide ((e ++ e) <:+ lowerStr fname)) = none := by
      rw [List.find?_eq_none]
      intro e he
      rcases (by simpa [content_extensions] using he :
          e = ".docx".data ∨ e = ".srt".data ∨ e = ".txt".data)
        with rfl | rfl | rfl
      · simpa using hndd
      · simpa using hnss
      · simpa using hntt
    have hfm : (content_extensions.flatMap fun ce =>
        metadata_extensions.map fun me => (ce, me)).find?
          (fun p => decide ((p.1 ++ p.2) <:+ lowerStr fname))
        = some (".srt".data, ".json".data) := by
      rw [contentMeta_pairs]
      rw [List.find?_cons_of_neg _ (by simpa using hndj)]
      exact List.find?_cons_of_pos _ (by simpa using h)
    constructor
    · simp only [get_real_extension, hfd, hfm]
    · have hj : ".json".data <:+ lowerStr fname :=
        List.IsSuffix.trans (by decide) h
      simp only [is_viewable]
      rw [if_pos hj, List.any_eq_true]
      exact ⟨".srt".data, by simp [viewable_double_exts], by simpa using h⟩
  · intro h
    have hndd : ¬ (".docx.docx".data <:+ lowerStr fname) :=
      suffix_excl_ge h (by decide) (by decide)
    have hnss : ¬ (".srt.srt".data <:+ lowerStr fname) :=
      suffix_excl_le h (by decide) (by decide)
    have hntt : ¬ (".txt.txt".data <:+ lowerStr fname) :=
      suffix_excl_le h (by decide) (by decide)
    have hndj : ¬ (".docx.json".data <:+ lowerStr fname) :=
      suffix_excl_ge h (by decide) (by decide)
    have hnsj : ¬ (".srt.json".data <:+ lowerStr fname) :=
      suffix_excl_le h (by decide) (by decide)
    have hfd : content_extensions.find?
        (fun e => decide ((e ++ e) <:+ lowerStr fname)) = none := by
      rw [List.find?_eq_none]
      intro e he
      rcases (by simpa [content_extensions] using he :
          e = ".docx".data ∨ e = ".srt".data ∨ e = ".txt".data)
        with rfl | rfl | rfl
      · simpa using hndd
      · simpa using hnss
      · simpa using hntt
    have hfm : (content_extensions.flatMap fun ce =>
        metadata_extensions.map fun me => (ce, me)).find?
          (fun p => decide ((p.1 ++ p.2) <:+ lowerStr fname))
        = some (".txt".data, ".json".data) := by
      rw [contentMeta_pairs]
      rw [List.find?_cons_of_neg _ (by simpa using hndj)]
      rw [List.find?_cons_of_neg _ (by simpa using hnsj)]
      exact List.find?_cons_of_pos _ (by simpa using h)
    constructor
    · simp only [get_real_extension, hfd, hfm]
    · have hj : ".json".data <:+ lowerStr fname :=
        List.IsSuffix.trans (by decide) h
      simp only [is_viewable]
      rw [if_pos hj, List.any_eq_true]
      exact ⟨".txt".data, by simp [viewable_double_exts], by simpa using h⟩
  · intro h
    have hndd : ¬ (".docx.docx".data <:+ lowerStr fname) :=
      suffix_excl_ge h (by decide) (by decide)
    have hfd : content_extensions.find?
        (fun e => decide ((e ++ e) <:+ lowerStr fname))
        = some ".srt".data := by
      simp only [content_extensions]
      rw [List.find?_cons_of_neg _ (by simpa using hndd)]
      exact List.find?_cons_of_pos _ (by simpa using h)
    simp only [get_real_extension, hfd]

/-- Witness for C4 at four concrete file names. -/
theorem C4_double_extension_resolution_witness :
    (get_real_extension "a.docx.json".data = ".docx".data ∧
      is_viewable "a.docx.json".data = true) ∧
    (get_real_extension "b.srt.json".data = ".srt".data ∧
      is_viewable "b.srt.json".data = true) ∧
    (get_real_extension "c.txt.json".data = ".txt".data ∧
      is_viewable "c.txt.json".data = true) ∧
    get_real_extension "d.srt.srt".data = ".srt".data :=
  ⟨(C4_double_extension_resolution "a.docx.json".data).1 (by decide),
   (C4_double_extension_resolution "b.srt.json".data).2.1 (by decide),
   (C4_double_extension_resolution "c.txt.json".data).2.2.1 (by decide),
   (C4_double_extension_resolution "d.srt.srt".data).2.2.2 (by decide)⟩

/-- C5 counterexample: `a.mp4.json` is marked previewable by the code
although its `.json` does not follow `.docx`, `.txt` or `.srt` — the
viewability check also accepts `.mp4`, `.m4a` and `.mp3` in front of
the `.json`. -/
theorem C5_counterexample_viewable :
    is_viewable "a.mp4.json".data = true ∧
    ¬ (".docx.json".data <:+ lowerStr "a.mp4.json".data) ∧
    ¬ (".srt.json".data <:+ lowerStr "a.mp4.json".data) ∧
    ¬ (".txt.json".data <:+ lowerStr "a.mp4.json".data) := by decide

/-- C5 (amended): a name ending in `.json` is previewable exactly when
the `.json` directly follows one of `.docx`, `.srt`, `.txt`, `.mp4`,
`.m4a`, `.mp3` (the code's double-extension list); every other `.json`
name is treated as metadata and is not previewable; a name not ending
in `.json` is previewable exactly when its resolved real extension is
`.docx`, `.txt` or `.srt`. -/
theorem C5_viewable_policy (fname : List Char) :
    (".json".data <:+ lowerStr fname →
      (is_viewable fname = true ↔
        ∃ e ∈ viewable_double_exts, (e ++ ".json".data) <:+ lowerStr fname)) ∧
    (¬ (".json".data <:+ lowerStr fname) →
      (is_viewable fname = true ↔
        get_real_extension fname ∈ viewable_extensions)) := by
  constructor
  · intro hj
    simp only [is_viewable]
    rw [if_pos hj, List.any_eq_true]
    simp
  · intro hj
    simp only [is_viewable]
    rw [if_neg hj]
    simp

/-- Witness for C5 (amended) at a plain `.txt` name. -/
theorem C5_viewable_policy_witness :
    is_viewable "a.txt".data = true ↔
      get_real_extension "a.txt".data ∈ viewable_extensions :=
  (C5_viewable_policy "a.txt".data).2 (by decide)

/-! ## C6 — filename sanitization -/

lemma mem_pyStrip {c : Char} {l : List Char} (h : c ∈ pyStrip l) : c ∈ l := by
  unfold pyStrip at h
  rw [List.mem_reverse] at h
  have h1 : c ∈ (l.dropWhile isStripChar).reverse :=
    (List.dropWhile_sublist _).mem h
  rw [List.mem_reverse] at h1
  exact (List.dropWhile_sublist _).mem h1

lemma head?_pyStrip {l : List Char} {c : Char}
    (h : (pyStrip l).head? = some c) : isStripChar c = false := by
  unfold pyStrip at h
  rw [List.head?_reverse] at h
  obtain ⟨t, ht⟩ :=
    List.dropWhile_suffix (l := (l.dropWhile isStripChar).reverse) isStripChar
  have h2 : ((l.dropWhile isStripChar).reverse).getLast? = some c := by
    rw [← ht, List.getLast?_append, h]
    rfl
  rw [List.getLast?_reverse] at h2
  have h3 := List.head?_dropWhile_not isStripChar l
  rw [h2] at h3
  exact h3

lemma getLast?_pyStrip {l : List Char} {c : Char}
    (h : (pyStrip l).getLast? = some c) : isStripChar c = false := by
  unfold pyStrip at h
  rw [List.getLast?_eq_head?_reverse, List.reverse_reverse] at h
  have h3 :=
    List.head?_dropWhile_not isStripChar (l.dropWhile isStripChar).reverse
  rw [h] at h3
  exact h3

lemma head?_of_take {n : Nat} {l : List Char} {c : Char}
    (h : (l.take n).head? = some c) : l.head? = some c := by
  cases l with
  | nil => simp at h
  | cons a as =>
    cases n with
    | zero => simp at h
    | succ m => simpa using h

/-- C6 counterexample: a 300-character display name with an illegal
`<` whose 200th post-substitution character is a dot — truncation
re-exposes a trailing dot, so the sanitized name violates the
"no trailing dots" part of the claim. -/
theorem C6_counterexample_sanitize :
    ('<' :: (List.replicate 198 'a' ++ '.' :: List.replicate 100 'b')).length
        = 300 ∧
    '<' ∈ ('<' :: (List.replicate 198 'a' ++ '.' :: List.replicate 100 'b')) ∧
    '<' ∈ illegal_chars ∧
    (sanitize_filename
        ('<' :: (List.replicate 198 'a' ++ '.' :: List.replicate 100 'b'))).getLast?
      = some '.' := by decide

/-- C6 (amended): for every 300-character display name containing
illegal characters, the sanitized name is at most 200 characters long,
contains no illegal character, and has no leading dot or space;
trailing dots and spaces are absent whenever the stripped name fits in
200 characters (they can only be re-exposed by the final truncation,
which cuts after stripping). -/
theorem C6_sanitize_filename (name : List Char)
    (hlen : name.length = 300)
    (hill : ∃ c ∈ name, c ∈ illegal_chars) :
    (sanitize_filename name).length ≤ 200 ∧
    (∀ c ∈ sanitize_filename name, c ∉ illegal_chars) ∧
    (∀ c, (sanitize_filename name).head? = some c → isStripChar c = false) ∧
    ((pyStrip (name.map fun c =>
        if c ∈ illegal_chars then '_' else c)).length ≤ 200 →
      ∀ c, (sanitize_filename name).getLast? = some c →
        isStripChar c = false) := by
  set f1 := name.map (fun c => if c ∈ illegal_chars then '_' else c) with hf1
  set f2 := pyStrip f1 with hf2
  have hs : sanitize_filename name
      = if 200 < f2.length then f2.take 200 else f2 := rfl
  refine ⟨?_, ?_, ?_, ?_⟩
  · rw [hs]
    split
    · simp [List.length_take]
    · omega
  · intro c hc
    have hcf2 : c ∈ f2 := by
      rw [hs] at hc
      rcases Nat.lt_or_ge 200 f2.length with h | h
      · rw [if_pos h] at hc
        exact (List.take_sublist _ _).mem hc
      · rw [if_neg (by omega)] at hc
        exact hc
    have hcf1 : c ∈ f1 := mem_pyStrip hcf2
    rw [hf1] at hcf1
    rcases List.mem_map.mp hcf1 with ⟨a, _, rfl⟩
    by_cases ha : a ∈ illegal_chars
    · rw [if_pos ha]; decide
    · rw [if_neg ha]; exact ha
  · intro c hc
    rw [hs] at hc
    have hcf2 : f2.head? = some c := by
      rcases Nat.lt_or_ge 200 f2.length with h | h
      · rw [if_pos h] at hc
        exact head?_of_take hc
      · rw [if_neg (by omega)] at hc
        exact hc
    exact head?_pyStrip hcf2
  · intro h200 c hc
    rw [hs, if_neg (by omega)] at hc
    exact getLast?_pyStrip hc

/-- Witness for C6 (amended) at a concrete 300-character name. -/
theorem C6_sanitize_filename_witness :
    (sanitize_filename (List.replicate 299 'a' ++ ['<'])).length ≤ 200 :=
  (C6_sanitize_filename (List.replicate 299 'a' ++ ['<'])
    (by rw [List.length_append, List.length_replicate]; rfl)
    ⟨'<', List.mem_append_right _ (by decide), by decide⟩).1

/-! ## C2 — enumeration with and without a cutoff -/

/-- The record does not trigger the cutoff test for `T`: either it has
no `placed_on`, or its `placed_on` is not earlier than `T`. -/
def keepsB (T : Int) (o : Order) : Bool :=
  match o.placed_on with
  | none => true
  | some u => !decide (u < T)

/-- Consistency of a run of pages strictly before the cutoff page: each
is non-empty, none of its records triggers the cutoff, and its declared
total exceeds the records accumulated through it (so pagination
continues). -/
def pagesOk (T : Int) : Nat → List Page → Prop
  | _, [] => True
  | accLen, p :: rest =>
    p.orders ≠ [] ∧ (∀ o ∈ p.orders, keepsB T o = true) ∧
      accLen + p.orders.length < p.total_count ∧
      pagesOk T (accLen + p.orders.length) rest

lemma scan_page_append (T : Int) (l1 l2 : List Order)
    (h : ∀ o ∈ l1, keepsB T o = true) :
    ∀ acc, scan_page (some T) acc (l1 ++ l2)
      = scan_page (some T) (acc ++ l1) l2 := by
  induction l1 with
  | nil => intro acc; simp
  | cons o rest ih =>
    intro acc
    have ho := h o (by simp)
    have hrest : ∀ o' ∈ rest, keepsB T o' = true :=
      fun o' h' => h o' (by simp [h'])
    cases hp : o.placed_on with
    | none =>
      simp only [List.cons_append, scan_page, hp, List.append_eq]
      rw [ih hrest, List.append_assoc]
      rfl
    | some u =>
      have hu : ¬ u < T := by simpa [keepsB, hp] using ho
      simp only [List.cons_append, scan_page, hp, List.append_eq]
      rw [if_neg hu, ih hrest, List.append_assoc]
      rfl

lemma scan_page_keeps (T : Int) (l : List Order)
    (h : ∀ o ∈ l, keepsB T o = true) (acc : List Order) :
    scan_page (some T) acc l = .inr (acc ++ l) := by
  have h2 := scan_page_append T l [] h acc
  rw [List.append_nil] at h2
  rw [h2]
  rfl

lemma scan_page_none (l : List Order) :
    ∀ acc, scan_page none acc l = .inr (acc ++ l) := by
  induction l with
  | nil => intro acc; simp [scan_page]
  | cons o rest ih =>
    intro acc
    cases hp : o.placed_on <;>
      · simp only [scan_page, hp]
        rw [ih, List.append_assoc]
        rfl

lemma scan_page_stop (T t : Int) (acc : List Order) (k : Order)
    (ordsB : List Order) (hk : k.placed_on = some t) (ht : t < T) :
    scan_page (some T) acc (k :: ordsB) = .inl acc := by
  simp only [scan_page, hk]
  rw [if_pos ht]

lemma run_pages_cutoff (T t : Int) (pK : Page) (pagesB : List Page)
    (ordsA : List Order) (k : Order) (ordsB : List Order)
    (hK : pK.orders = ordsA ++ k :: ordsB)
    (hkt : k.placed_on = some t) (htT : t < T)
    (hA : ∀ o ∈ ordsA, keepsB T o = true) :
    ∀ (pagesA : List Page) (acc : List Order) (fetched : Nat),
      pagesOk T acc.length pagesA →
      run_pages (some T) acc fetched (pagesA ++ pK :: pagesB)
        = (acc ++ pagesA.flatMap Page.orders ++ ordsA,
           fetched + pagesA.length + 1) := by
  intro pagesA
  induction pagesA with
  | nil =>
    intro acc fetched _
    have hne : pK.orders.isEmpty = false := by
      rw [hK]; cases ordsA <;> rfl
    simp only [List.nil_append, run_pages, hne, Bool.false_eq_true,
      if_false]
    rw [hK, scan_page_append T ordsA (k :: ordsB) hA acc,
      scan_page_stop T t (acc ++ ordsA) k ordsB hkt htT]
    simp
  | cons p pA ih =>
    intro acc fetched hok
    obtain ⟨hne, hkeep, hlt, hrest⟩ := hok
    have hne' : p.orders.isEmpty = false := by
      rcases hp : p.orders with _ | ⟨a, as⟩
      · exact absurd hp hne
      · rfl
    simp only [List.cons_append, run_pages, hne', Bool.false_eq_true,
      if_false, List.append_eq]
    rw [scan_page_keeps T p.orders hkeep acc]
    have hgt : ¬ p.total_count ≤ (acc ++ p.orders).length := by
      rw [List.length_append]; omega
    simp only [if_neg hgt]
    rw [ih (acc ++ p.orders) (fetched + 1)
      (by rw [List.length_append]; exact hrest)]
    simp only [Prod.mk.injEq]
    constructor
    · simp [List.append_assoc]
    · simp [List.length_cons]
      omega

lemma run_pages_no_cutoff (pages : List Page) :
    ∀ acc fetched,
      (run_pages none acc fetched pages).1 = spec_enumerate acc pages := by
  induction pages with
  | nil => intro acc fetched; rfl
  | cons p rest ih =>
    intro acc fetched
    simp only [run_pages, spec_enumerate]
    split
    · rfl
    · rw [scan_page_none p.orders acc]
      simp only []
      split
      · rfl
      · exact ih (acc ++ p.orders) (fetched + 1)

/-- C2: with cutoff `T`, when record `k` — carrying `placed_on = t`
with `t < T` — is the first record (reading pages newest-first) that is
earlier than the cutoff, `get_all_orders` returns exactly the records
before `k`, across page boundaries, and fetches no page past the one
holding `k`; the pages before it must be non-empty with totals that
keep pagination going (`pagesOk`), which is the paging-consistency the
claim presupposes.  Without a cutoff the loop matches the spec-side
enumerator: it continues until the declared total is reached or a page
is empty. -/
theorem C2_enumeration :
    (∀ (pagesA : List Page) (pK : Page) (pagesB : List Page)
        (ordsA : List Order) (k : Order) (ordsB : List Order) (T t : Int),
      pK.orders = ordsA ++ k :: ordsB →
      k.placed_on = some t → t < T →
      (∀ o ∈ ordsA, keepsB T o = true) →
      pagesOk T 0 pagesA →
      get_all_orders (pagesA ++ pK :: pagesB) (some T)
          = pagesA.flatMap Page.orders ++ ordsA ∧
        pages_fetched (pagesA ++ pK :: pagesB) (some T)
          = pagesA.length + 1) ∧
    (∀ pages : List Page,
      get_all_orders pages none = spec_enumerate [] pages) := by
  constructor
  · intro pagesA pK pagesB ordsA k ordsB T t hK hkt htT hA hok
    have h := run_pages_cutoff T t pK pagesB ordsA k ordsB hK hkt htT hA
      pagesA [] 0 hok
    constructor
    · unfold get_all_orders
      rw [h]
      simp
    · unfold pages_fetched
      rw [h]
      simp
  · intro pages
    exact run_pages_no_cutoff pages [] 0

/-- Witness for C2 at a concrete two-page listing whose fourth record
crosses the cutoff. -/
theorem C2_enumeration_witness :
    get_all_orders
        ([⟨10, [⟨"1", "x".data, some 10, []⟩, ⟨"2", "x".data, some 9, []⟩]⟩]
          ++ ⟨10, [⟨"3", "x".data, some 8, []⟩, ⟨"4", "x".data, some 1, []⟩,
                   ⟨"5", "x".data, some 7, []⟩]⟩
          :: [⟨10, [⟨"6", "x".data, some 0, []⟩]⟩]) (some 5)
        = [⟨"1", "x".data, some 10, []⟩, ⟨"2", "x".data, some 9, []⟩,
           ⟨"3", "x".data, some 8, []⟩] ∧
      pages_fetched
        ([⟨10, [⟨"1", "x".data, some 10, []⟩, ⟨"2", "x".data, some 9, []⟩]⟩]
          ++ ⟨10, [⟨"3", "x".data, some 8, []⟩, ⟨"4", "x".data, some 1, []⟩,
                   ⟨"5", "x".data, some 7, []⟩]⟩
          :: [⟨10, [⟨"6", "x".data, some 0, []⟩]⟩]) (some 5) = 2 :=
  C2_enumeration.1
    [⟨10, [⟨"1", "x".data, some 10, []⟩, ⟨"2", "x".data, some 9, []⟩]⟩]
    ⟨10, [⟨"3", "x".data, some 8, []⟩, ⟨"4", "x".data, some 1, []⟩,
          ⟨"5", "x".data, some 7, []⟩]⟩
    [⟨10, [⟨"6", "x".data, some 0, []⟩]⟩]
    [⟨"3", "x".data, some 8, []⟩] ⟨"4", "x".data, some 1, []⟩
    [⟨"5", "x".data, some 7, []⟩] 5 1 rfl rfl (by decide) (by decide)
    ⟨List.cons_ne_nil _ _, by decide, by decide, trivial⟩

/-! ## C1 — the ledger gates every per-attachment action -/

lemma download_events_id (env : SyncEnv) (id : String) (fmt : Option String) :
    ∀ ev ∈ (download_attachment_content env id fmt none).1,
      ev.eventId = id := by
  intro ev hev
  cases fmt with
  | none =>
    simp [download_attachment_content] at hev
    rw [hev]; rfl
  | some f =>
    rcases hc : env.content id (some f) with _ | b
    · simp [download_attachment_content, hc] at hev
      rcases hev with rfl | rfl <;> rfl
    · simp [download_attachment_content, hc] at hev
      rw [hev]; rfl

lemma process_attachment_events_id (env : SyncEnv) (im it dr : Bool)
    (ledger : Finset String) (att : Attachment) :
    ∀ ev ∈ (process_attachment env im it dr ledger att).1,
      ev.eventId = att.id := by
  intro ev hev
  by_cases hmem : att.id ∈ ledger
  · simp [process_attachment, hmem] at hev
  · simp only [process_attachment, if_neg hmem] at hev
    split at hev
    · simp at hev; rw [hev]; rfl
    · split at hev
      · simp at hev; rw [hev]; rfl
      · split at hev
        · simp at hev; rw [hev]; rfl
        · split at hev
          · simp at hev
            rcases hev with rfl | rfl <;> rfl
          · split at hev
            · rename_i tr1 heq
              simp at hev
              rcases hev with rfl | rfl | hev
              · rfl
              · rfl
              · refine download_events_id env att.id
                  (get_preferred_format (classify_attachment att)) ev ?_
                rw [heq]
                exact hev
            · rename_i tr1 b heq
              simp at hev
              rcases hev with rfl | rfl | hev
              · rfl
              · rfl
              · refine download_events_id env att.id
                  (get_preferred_format (classify_attachment att)) ev ?_
                rw [heq]
                exact hev

lemma process_attachment_mono (env : SyncEnv) (im it dr : Bool)
    (ledger : Finset String) (att : Attachment) :
    ledger ⊆ (process_attachment env im it dr ledger att).2.1 := by
  by_cases hmem : att.id ∈ ledger
  · simp [process_attachment, hmem]
  · simp only [process_attachment, if_neg hmem]
    repeat' split
    all_goals first
      | exact Finset.Subset.refl _
      | exact Finset.subset_insert _ _

lemma process_attachment_skip (env : SyncEnv) (im it dr : Bool)
    (ledger : Finset String) (att : Attachment) (h : att.id ∈ ledger) :
    process_attachment env im it dr ledger att = ([], ledger, .skipped) := by
  simp [process_attachment, h]

lemma process_attachments_mono (env : SyncEnv) (im it dr : Bool) :
    ∀ (atts : List Attachment) (ledger : Finset String),
      ledger ⊆ (process_attachments env im it dr ledger atts).2 := by
  intro atts
  induction atts with
  | nil => intro ledger; exact Finset.Subset.refl _
  | cons a rest ih =>
    intro ledger
    rcases hpa : process_attachment env im it dr ledger a with ⟨tr, ledger', out⟩
    simp only [process_attachments, hpa]
    refine Finset.Subset.trans ?_ (ih ledger')
    have := process_attachment_mono env im it dr ledger a
    rw [hpa] at this
    exact this

lemma process_attachments_no_events (env : SyncEnv) (im it dr : Bool)
    (id : String) :
    ∀ (atts : List Attachment) (ledger : Finset String), id ∈ ledger →
      ∀ ev ∈ (process_attachments env im it dr ledger atts).1,
        ev.eventId ≠ id := by
  intro atts
  induction atts with
  | nil => intro ledger _ ev hev; simp [process_attachments] at hev
  | cons a rest ih =>
    intro ledger hid ev hev
    rcases hpa : process_attachment env im it dr ledger a with ⟨tr, ledger', out⟩
    simp only [process_attachments, hpa] at hev
    rcases List.mem_append.mp hev with h1 | h2
    · by_cases haid : a.id = id
      · have hskip := process_attachment_skip env im it dr ledger a
          (haid ▸ hid)
        rw [hskip] at hpa
        obtain ⟨rfl, -, -⟩ := Prod.mk.injEq .. ▸ hpa.symm
        simp at h1
      · have := process_attachment_events_id env im it dr ledger a ev
          (by rw [hpa]; exact h1)
        rw [this]
        exact haid
    · have hid' : id ∈ ledger' := by
        have := process_attachment_mono env im it dr ledger a
        rw [hpa] at this
        exact this hid
      exact ih ledger' hid' ev h2

lemma sync_run_mono (env : SyncEnv) (im it dr : Bool) :
    ∀ (orders : List Order) (ledger : Finset String),
      ledger ⊆ (sync_run env im it dr ledger orders).2 := by
  intro orders
  induction orders with
  | nil => intro ledger; exact Finset.Subset.refl _
  | cons o rest ih =>
    intro ledger
    rcases ho : env.order_details o.order_number with _ | full
    · simp only [sync_run, ho]
      exact ih ledger
    · rcases hpa : process_attachments env im it dr ledger full.attachments
        with ⟨tr, ledger'⟩
      simp only [sync_run, ho, hpa]
      refine Finset.Subset.trans ?_ (ih ledger')
      have := process_attachments_mono env im it dr full.attachments ledger
      rw [hpa] at this
      exact this

/-- C1: during a sync run, an attachment id already present in the
ledger at the start triggers no traced action at all — no
classification, no metadata fetch and in particular zero content-fetch
calls; `is_downloaded` is consulted first and a marked attachment is
skipped entirely (the ledger only grows during the run, so this holds
across every order and attachment processed). -/
theorem C1_ledger_gates_sync (env : SyncEnv) (im it dr : Bool)
    (ledger : Finset String) (orders : List Order) (id : String)
    (h : id ∈ ledger) :
    ∀ ev ∈ (sync_run env im it dr ledger orders).1, ev.eventId ≠ id := by
  induction orders generalizing ledger with
  | nil => intro ev hev; simp [sync_run] at hev
  | cons o rest ih =>
    intro ev hev
    rcases ho : env.order_details o.order_number with _ | full
    · simp only [sync_run, ho] at hev
      exact ih ledger h ev hev
    · rcases hpa : process_attachments env im it dr ledger full.attachments
        with ⟨tr, ledger'⟩
      simp only [sync_run, ho, hpa] at hev
      rcases List.mem_append.mp hev with h1 | h2
      · refine process_attachments_no_events env im it dr id
          full.attachments ledger h ev ?_
        rw [hpa]
        exact h1
      · have hid' : id ∈ ledger' := by
          have := process_attachments_mono env im it dr full.attachments ledger
          rw [hpa] at this
          exact this h
        exact ih ledger' hid' ev h2

/-- Witness for C1: with attachment `a1` already in the ledger, a run
over an order carrying `a1` issues no content fetch for it. -/
theorem C1_ledger_gates_sync_witness :
    SyncEvent.contentFetch "a1" (some "json") ∉
      (sync_run
        ⟨fun _ => some ⟨"12345", "complete".data, none,
            [⟨"a1", "transcript.json".data, "transcript".data, none⟩]⟩,
         fun s => some ⟨s, "transcript.json".data, "transcript".data, none⟩,
         fun _ _ => some 7⟩
        true true false {"a1"}
        [⟨"12345", "complete".data, none, []⟩]).1 :=
  fun hmem =>
    C1_ledger_gates_sync
      ⟨fun _ => some ⟨"12345", "complete".data, none,
          [⟨"a1", "transcript.json".data, "transcript".data, none⟩]⟩,
       fun s => some ⟨s, "transcript.json".data, "transcript".data, none⟩,
       fun _ _ => some 7⟩
      true true false {"a1"}
      [⟨"12345", "complete".data, none, []⟩] "a1"
      (Finset.mem_singleton_self "a1")
      (SyncEvent.contentFetch "a1" (some "json")) hmem rfl

end RevExporter
